import Mathlib

/-!
Verification development for a small feedforward neural-network library
(`layers.h`, `net.h`, `loss.h`, `labels.h`, `softmax.h`, `paral.h`).

Matrices are embedded as row-major lists of rows over `ℚ` (standing for the
C++ `float`, with exact field arithmetic).  Boolean label matrices are lists
of rows of `Bool`.  Exceptions (`std::invalid_argument`) are embedded with
`Except Err`; stateful operations return their final state alongside the
result so that post-exception state is observable.
-/

/-- Row-major matrix of rationals: a list of rows. -/
abbrev Mat := List (List ℚ)

/-- Row-major matrix of booleans (one-hot label matrices). -/
abbrev MatB := List (List Bool)

/-- Error type: `std::invalid_argument` is the only exception thrown by the core. -/
inductive Err where
  | invalidArgument
  deriving DecidableEq, Repr

/-- Dot product of two rational vectors (missing tails contribute 0). -/
def dotQ : List ℚ → List ℚ → ℚ
  | a :: as, b :: bs => a * b + dotQ as bs
  | _, _ => 0

/-- Sum of a list of rationals. -/
def listSum (l : List ℚ) : ℚ := l.foldr (· + ·) 0

/-- Number of columns of a matrix (length of its first row), as Eigen's `cols()`. -/
def colsOf (M : Mat) : ℕ := (M.headD []).length

/-- Column `j` of a matrix. -/
def colOf (M : Mat) (j : ℕ) : List ℚ := M.map (fun r => r.getD j 0)

/-- Matrix transpose. -/
def transposeM (M : Mat) : Mat := (List.range (colsOf M)).map (fun j => colOf M j)

/-- Matrix product. -/
def matMul (A B : Mat) : Mat :=
  A.map (fun row => (List.range (colsOf B)).map (fun j => dotQ row (colOf B j)))

/-- Elementwise (Hadamard) product, as Eigen's `array() * array()`. -/
def matHadamard (A B : Mat) : Mat := List.zipWith (List.zipWith (· * ·)) A B

/-- Elementwise difference. -/
def matSub (A B : Mat) : Mat := List.zipWith (List.zipWith (· - ·)) A B

/-- Scalar multiple of a matrix. -/
def smulM (c : ℚ) (M : Mat) : Mat := M.map (List.map (fun x => c * x))

/-- Elementwise map over a matrix (Eigen's `unaryExpr`). -/
def matUnaryExpr (f : ℚ → ℚ) (M : Mat) : Mat := M.map (List.map f)

/-- Shape predicate: `M` has `r` rows, every row of length `c`. -/
def HasShape (M : Mat) (r c : ℕ) : Prop := M.length = r ∧ ∀ row ∈ M, row.length = c

instance (M : Mat) (r c : ℕ) : Decidable (HasShape M r c) := by
  unfold HasShape; infer_instance

/-- Shape predicate for boolean matrices. -/
def HasShapeB (M : MatB) (r c : ℕ) : Prop := M.length = r ∧ ∀ row ∈ M, row.length = c

instance (M : MatB) (r c : ℕ) : Decidable (HasShapeB M r c) := by
  unfold HasShapeB; infer_instance

/-!  Embedding of `LinearLayer` (layers.h).  The CRTP activation pair
`(activate, differentiate)` becomes a pair of function-valued fields; the
derived class `PlainLinearLayer` is the identity instance.  Construction-time
random weight initialisation is not modelled (no claim concerns it): layers
are built directly from a weight matrix. -/

structure LinearLayer where
  activate : ℚ → ℚ
  differentiate : ℚ → ℚ
  in_dim : ℕ
  out_dim : ℕ
  max_weight : ℚ
  weights : Mat

/-- Appends the constant-one bias column to an input batch
(layers.h `augmentOne`: `augmented << to_augment, bias_col`). -/
def augmentOne (to_augment : Mat) : Mat := to_augment.map (fun row => row ++ [1])

/-- Weight matrix with its last (bias) row excluded:
`weights(Eigen::seq(0, Eigen::last-1), Eigen::all)`. -/
def weightsNoBias (layer : LinearLayer) : Mat := layer.weights.dropLast

/-- layers.h `transformGradient`: back-multiplies through the weights
excluding the bias row, transposed. -/
def transformGradient (layer : LinearLayer) (gradient : Mat) : Mat :=
  matMul gradient (transposeM (weightsNoBias layer))

/-- layers.h `feedForward`: augment, multiply by weights to get signals,
apply the activation elementwise to get outputs; returns (signals, outputs). -/
def feedForward (layer : LinearLayer) (inputs : Mat) : Mat × Mat :=
  let aug_inputs := augmentOne inputs
  let signals := matMul aug_inputs layer.weights
  let outputs := matUnaryExpr layer.activate signals
  (signals, outputs)

/-- layers.h `backPropagate` (hidden-layer variant).  Note that the source
back-multiplies `diff_signals` — not `gradient` — through the weights:
`auto new_tgradient = transformGradient(diff_signals);`. -/
def backPropagate (layer : LinearLayer) (signals tgradient : Mat) : Mat × Mat :=
  let diff_signals := matUnaryExpr layer.differentiate signals
  let gradient := matHadamard diff_signals tgradient
  let new_tgradient := transformGradient layer diff_signals
  (gradient, new_tgradient)

/-- layers.h `seedBackProp` (output-layer variant): corrects the incoming
loss gradient by the activation derivative and back-multiplies the corrected
gradient. -/
def seedBackProp (layer : LinearLayer) (signals gradient : Mat) : Mat × Mat :=
  let diff_signals := matUnaryExpr layer.differentiate signals
  let corrected_gradient := matHadamard diff_signals gradient
  let tgradient := transformGradient layer corrected_gradient
  (corrected_gradient, tgradient)

/-- layers.h `updateWeights`: `weights -= lr * (aug_inputs.transpose() * gradient)`. -/
def updateWeights (layer : LinearLayer) (inputs gradient : Mat) (lr : ℚ) : LinearLayer :=
  let aug_inputs := augmentOne inputs
  let step := smulM lr (matMul (transposeM aug_inputs) gradient)
  { layer with weights := matSub layer.weights step }

/-- layers.h `PlainLinearLayer`: identity activation, derivative 1. -/
def plainLinearLayer (in_dim out_dim : ℕ) (max_weight : ℚ) (w : Mat) : LinearLayer :=
  { activate := fun f => f
    differentiate := fun _ => 1
    in_dim := in_dim
    out_dim := out_dim
    max_weight := max_weight
    weights := w }

/-!  Embedding of Eigen's integer `setLinSpaced` (used by labels.h and
paral.h with arguments `(0, n)` on a vector of size `n`).  For integer
scalars Eigen computes, when `|high-low|+1 ≥ num_steps`, the multiplier
`(high-low)/(num_steps-1)` with C++ integer division and returns
`low + i*multiplier`; otherwise it uses the divisor path
`low + i/divisor`.  All uses in this repository have nonnegative operands,
where Lean's integer division agrees with C++ truncation. -/
def eigenLinSpacedInt (num_steps : ℕ) (low high : ℤ) : List ℤ :=
  let delta := high - low
  let multiplier := delta / (if num_steps ≤ 1 then 1 else (num_steps : ℤ) - 1)
  let den : ℤ := if ((delta.natAbs : ℤ) + 1) = 0 then 1 else ((delta.natAbs : ℤ) + 1)
  let divisor := ((if low ≤ high then (num_steps : ℤ) else -(num_steps : ℤ)) + delta) / den
  if 1 < num_steps ∧ ((delta.natAbs : ℤ) + 1) < (num_steps : ℤ) then
    (List.range num_steps).map (fun i => low + (i : ℤ) / divisor)
  else
    (List.range num_steps).map (fun i => low + (i : ℤ) * multiplier)

/-- paral.h `rangeParExec`: applies the worker function to every element of
`setLinSpaced(0, max)` over a vector of size `max`.  The C++ version
dispatches rows in parallel, but every row writes only its own slot, so a
left fold over the same index list is an equivalent sequential model.
An out-of-range index is undefined behaviour in C++; the state updates used
below model it as a silent no-op (`List.set` out of bounds). -/
def rangeParExecFold {σ : Type} (max : ℕ) (f : ℤ → σ → σ) (init : σ) : σ :=
  (eigenLinSpacedInt max 0 (max : ℤ)).foldl (fun s k => f k s) init

/-- Cast of a boolean entry to an integer (Eigen's `cast<int>()`). -/
def boolToZ (b : Bool) : ℤ := if b then 1 else 0

/-- Dot product of two integer vectors. -/
def dotZ : List ℤ → List ℤ → ℤ
  | a :: as, b :: bs => a * b + dotZ as bs
  | _, _ => 0

/-- Number of columns of a boolean matrix. -/
def colsOfB (M : MatB) : ℕ := (M.headD []).length

/-- Minimum entry of an integer vector (Eigen's `minCoeff`; junk on empty). -/
def minCoeffZ (l : List ℤ) : ℤ := l.foldl min (l.headD 0)

/-- Maximum entry of an integer vector (Eigen's `maxCoeff`; junk on empty). -/
def maxCoeffZ (l : List ℤ) : ℤ := l.foldl max (l.headD 0)

/-- labels.h `_toIndicesLabels`: the matrix product of the labels cast to
`int` against the vector `indices.setLinSpaced(0, num_classes)` of size
`num_classes`. -/
def toIndicesLabels (one_hot_labels : MatB) : List ℤ :=
  let num_classes := colsOfB one_hot_labels
  let indices := eigenLinSpacedInt num_classes 0 (num_classes : ℤ)
  one_hot_labels.map (fun row => dotZ (row.map boolToZ) indices)

/-- Sets entry `(r, c)` of a boolean matrix to `true`. -/
def setEntryTrue (rows : MatB) (r c : ℕ) : MatB :=
  rows.set r ((rows.getD r []).set c true)

/-- labels.h `_toOneHotLabels`: validates the index range, then builds a
zero matrix and sets one entry per row via `rangeParExec`. -/
def toOneHotLabels (indices_labels : List ℤ) (num_classes : ℕ) : Except Err MatB :=
  if minCoeffZ indices_labels < 0 then .error .invalidArgument
  else if (num_classes : ℤ) ≤ maxCoeffZ indices_labels then .error .invalidArgument
  else
    let num_rows := indices_labels.length
    let init : MatB := List.replicate num_rows (List.replicate num_classes false)
    .ok (rangeParExecFold num_rows
      (fun k rows => setEntryTrue rows k.toNat (indices_labels.getD k.toNat 0).toNat) init)

/-!  Embedding of softmax.h and loss.h.  The elementwise exponential
(`myExp`) and logarithm (`std::logf`) are transcendental; they are taken as
parameters `expf` and `logf`, so every theorem below holds for an arbitrary
interpretation of them. -/

/-- Cast of a boolean matrix to rationals (Eigen's `cast<float>()`). -/
def castBoolMat (M : MatB) : Mat := M.map (List.map (fun b => if b then (1 : ℚ) else 0))

/-- softmax.h `softMax` with `Ax::One`: exponentiate elementwise and divide
each row by its sum (`s.asDiagonal().inverse() * raised`). -/
def softMaxAx1 (expf : ℚ → ℚ) (input : Mat) : Mat :=
  let raised := matUnaryExpr expf input
  raised.map (fun row => row.map (fun x => x / listSum row))

/-- Index of the first maximal entry of a row, as Eigen's `maxCoeff(&i)`
(a later entry replaces the current best only when strictly greater). -/
def argmaxAux : List ℚ → ℕ → ℕ → ℚ → ℕ
  | [], _, besti, _ => besti
  | x :: xs, i, besti, bestv =>
      if bestv < x then argmaxAux xs (i + 1) i x else argmaxAux xs (i + 1) besti bestv

/-- First-occurrence argmax of a rational vector (junk 0 on empty). -/
def argmaxQ : List ℚ → ℕ
  | [] => 0
  | x :: xs => argmaxAux xs 1 0 x

/-- loss.h `_softMaxLoss`: categorical cross-entropy with softmax.
Returns `((cross_entropy, misclassification), gradient)`. -/
def softMaxLoss (expf logf : ℚ → ℚ) (outputs : Mat) (one_hot_labels : MatB) :
    (ℚ × ℚ) × Mat :=
  let num_rows := one_hot_labels.length
  let labels_float : Mat := castBoolMat one_hot_labels
  let softmaxed := softMaxAx1 expf outputs
  let probs := (matHadamard softmaxed labels_float).map listSum
  let logits := probs.map logf
  let cross_entropy := (-1 / (num_rows : ℚ)) * listSum logits
  let indices_labels := toIndicesLabels one_hot_labels
  let max_col := rangeParExecFold num_rows
    (fun k v => v.set k.toNat (argmaxQ (softmaxed.getD k.toNat [])))
    (List.replicate num_rows (0 : ℕ))
  let misclas := (1 / (num_rows : ℚ)) *
    listSum (List.zipWith (fun (a : ℕ) (b : ℤ) => if (a : ℤ) ≠ b then (1 : ℚ) else 0)
      max_col indices_labels)
  let gradient := smulM (1 / (num_rows : ℚ)) (matSub softmaxed labels_float)
  ((cross_entropy, misclas), gradient)

/-!  Embedding of `FeedFwdNN` (net.h).  The CRTP evaluator (`Impl` with
`evaluate` and `loss`) becomes an explicit parameter of type `Eval`; the
`MultiClassNN` instance fixes it to `softMaxLoss` and stores the
`(cross_entropy, misclassification)` pair in the `loss` field.  The three
parallel per-layer closure lists (`feedforward_funcs`, `backprop_funcs`,
`update_funcs`) all capture the same layer object and are pushed and popped
together, so they are represented by a single list `hidden`; the output
layer's three closures are the `output_layer` field. -/

structure FeedFwdNN where
  inputs : Mat
  one_hot_labels : MatB
  output_layer : LinearLayer
  hidden : List LinearLayer
  loss : ℚ × ℚ

/-- Evaluator contract of the CRTP `Impl` parameter:
`evaluate(outputs, labels)` returns `((loss, metric), gradient)`. -/
abbrev Eval := Mat → MatB → (ℚ × ℚ) × Mat

/-- net.h `MultiClassNN::evaluate`, the softmax cross-entropy instance. -/
def multiClassEvaluate (expf logf : ℚ → ℚ) : Eval :=
  fun outputs one_hot_labels => softMaxLoss expf logf outputs one_hot_labels

/-- net.h `pushLayer`: appends the layer's closures at the tail. -/
def pushLayer (net : FeedFwdNN) (layer : LinearLayer) : FeedFwdNN :=
  { net with hidden := net.hidden ++ [layer] }

/-- net.h `popLayer`: pops the three per-layer lists unconditionally.
`pop_back` on an empty `std::vector` is undefined behaviour, so the pop is
Option-guarded: `none` is the error branch reached on an empty stack. -/
def popLayer (net : FeedFwdNN) : Option FeedFwdNN :=
  match net.hidden with
  | [] => none
  | _ :: _ => some { net with hidden := net.hidden.dropLast }

/-- Loop of net.h `fwdPass`: threads `signals_outputs.first` — the
pre-activation signals — as the next layer's input (the source takes
`.first` of the `(signals, outputs)` pair), collecting every
`(signals, outputs)` pair; returns the collected vector and the final
threaded value. -/
def fwdAux : List LinearLayer → Mat → (List (Mat × Mat)) × Mat
  | [], next_inputs => ([], next_inputs)
  | layer :: rest, next_inputs =>
      let signals_outputs := feedForward layer next_inputs
      let r := fwdAux rest signals_outputs.1
      (signals_outputs :: r.1, r.2)

/-- net.h `fwdPass`: forward pass through the hidden stack and the output
layer, then one `evaluate` call; when `update_loss` is set the evaluator's
`(loss, metric)` pair is stored in the network's `loss` member.  Returns
`(signals_outputs_vec, final_signals, pre_gradient, entropy, net')`. -/
def fwdPass (ev : Eval) (net : FeedFwdNN) (curr_inputs : Mat) (curr_one_hot_labels : MatB)
    (update_loss : Bool) :
    (List (Mat × Mat)) × Mat × Mat × (ℚ × ℚ) × FeedFwdNN :=
  let hid := fwdAux net.hidden curr_inputs
  let final_signals_outputs := feedForward net.output_layer hid.2
  let entropy_gradient := ev final_signals_outputs.2 curr_one_hot_labels
  let net' := if update_loss then { net with loss := entropy_gradient.1 } else net
  (hid.1, final_signals_outputs.1, entropy_gradient.2, entropy_gradient.1, net')

/-- Loop of net.h `bwdPass`: walks the hidden layers in reverse order
(already reversed in the argument list, paired with their stored signals),
threading the transformed gradient and collecting each layer's gradient. -/
def bwdAux : List (LinearLayer × Mat) → Mat → List Mat
  | [], _ => []
  | p :: rest, tgradient =>
      let gradient_tgradient := backPropagate p.1 p.2 tgradient
      gradient_tgradient.1 :: bwdAux rest gradient_tgradient.2

/-- net.h `bwdPass`: seeds backpropagation at the output layer with the
evaluator's gradient, then walks the hidden layers output-side first;
the returned list of gradients is collected output-first. -/
def bwdPass (net : FeedFwdNN) (signals_outputs_vec : List (Mat × Mat))
    (final_signals pre_gradient : Mat) : List Mat :=
  let gradient_tgradient := seedBackProp net.output_layer final_signals pre_gradient
  gradient_tgradient.1 ::
    bwdAux ((net.hidden.zip (signals_outputs_vec.map Prod.fst)).reverse) gradient_tgradient.2

/-- net.h `updateNetwork`: rejects a negative learning rate before touching
any weight; otherwise temporarily appends the output layer's update closure
(`update_funcs.push_back(output_update)` … `pop_back`) and calls
`update_funcs[0]` on the network's stored member `inputs` with the last
collected gradient, then `update_funcs[i+1]` on `outputs_vec[i]` with
`gradient_vec[size-2-i]` for each `i` below `outputs_vec.size()`.
The final state is returned alongside the exception status. -/
def updateNetwork (net : FeedFwdNN) (outputs_vec gradient_vec : List Mat) (lr : ℚ) :
    Except Err Unit × FeedFwdNN :=
  if lr < 0 then (.error .invalidArgument, net)
  else
    let upd := net.hidden ++ [net.output_layer]
    let g := gradient_vec.length
    let upd' := upd.mapIdx (fun j layer =>
      if j = 0 then updateWeights layer net.inputs (gradient_vec.getD (g - 1) []) lr
      else if j ≤ outputs_vec.length then
        updateWeights layer (outputs_vec.getD (j - 1) []) (gradient_vec.getD (g - 1 - j) []) lr
      else layer)
    (.ok (), { net with hidden := upd'.dropLast,
                        output_layer := upd'.getLastD net.output_layer })

/-- net.h `train`: forward pass (recording the loss), backward pass,
collection of `outputs_vec` from the `.second` components of the forward
pairs, then `updateNetwork`; returns the recorded `loss` member on success
and propagates the exception otherwise, alongside the final network state. -/
def train (ev : Eval) (net : FeedFwdNN) (lr : ℚ) (curr_inputs : Mat)
    (curr_one_hot_labels : MatB) : Except Err (ℚ × ℚ) × FeedFwdNN :=
  let t := fwdPass ev net curr_inputs curr_one_hot_labels true
  let net1 := t.2.2.2.2
  let gradient_vec := bwdPass net1 t.1 t.2.1 t.2.2.1
  let outputs_vec := t.1.map Prod.snd
  let u := updateNetwork net1 outputs_vec gradient_vec lr
  match u.1 with
  | .ok _ => (.ok u.2.loss, u.2)
  | .error e => (.error e, u.2)

/-- net.h overloaded `train(lr)`: uses the stored default members. -/
def trainDefault (ev : Eval) (net : FeedFwdNN) (lr : ℚ) : Except Err (ℚ × ℚ) × FeedFwdNN :=
  train ev net lr net.inputs net.one_hot_labels

/-- net.h `test`: forward pass with `update_loss = false`, returning
`std::get<3>` — the evaluator's `(loss, metric)` pair — and the (unchanged)
network state. -/
def test (ev : Eval) (net : FeedFwdNN) (curr_inputs : Mat) (curr_one_hot_labels : MatB) :
    (ℚ × ℚ) × FeedFwdNN :=
  let t := fwdPass ev net curr_inputs curr_one_hot_labels false
  (t.2.2.2.1, t.2.2.2.2)

/-- Observable weight state of a network: every hidden layer's weight
matrix together with the output layer's. -/
def netWeights (net : FeedFwdNN) : List Mat × Mat :=
  (net.hidden.map LinearLayer.weights, net.output_layer.weights)

/-- Final post-activation outputs of a full forward pass, as computed by
net.h `fwdPass` (the output layer applied to the threaded value). -/
def netFinalOutputs (net : FeedFwdNN) (curr_inputs : Mat) : Mat :=
  (feedForward net.output_layer (fwdAux net.hidden curr_inputs).2).2

/-!  Concrete fixtures used by counterexamples and witnesses. -/

/-- Trivial evaluator instance (any CRTP `Impl` is admissible): constant
metrics and a constant seed gradient. -/
def evalConst : Eval := fun _ _ => ((0, 0), [[1]])

/-- Network with one plain (identity) hidden layer and a plain output
layer, both 1 → 1 with weight 1 and bias 0; stored default inputs [[0]]. -/
def netExample : FeedFwdNN :=
  { inputs := [[0]]
    one_hot_labels := [[true]]
    output_layer := plainLinearLayer 1 1 1 [[1], [0]]
    hidden := [plainLinearLayer 1 1 1 [[1], [0]]]
    loss := (0, 0) }

/-- Layer with activation `x ↦ x + x` and its exact derivative 2, an
admissible CRTP instance per the activation contract. -/
def doublingLayer : LinearLayer :=
  { activate := fun x => x + x
    differentiate := fun _ => 2
    in_dim := 1
    out_dim := 1
    max_weight := 1
    weights := [[1], [0]] }

/-- Network whose single hidden layer doubles, with identity output layer. -/
def netDoubling : FeedFwdNN :=
  { inputs := [[0]]
    one_hot_labels := [[true]]
    output_layer := plainLinearLayer 1 1 1 [[1], [0]]
    hidden := [doublingLayer]
    loss := (0, 0) }

/-!  Helper lemmas. -/

theorem listSum_cons (a : ℚ) (l : List ℚ) : listSum (a :: l) = a + listSum l := rfl

theorem listSum_zipWith_mul : ∀ a b : List ℚ, listSum (List.zipWith (· * ·) a b) = dotQ a b := by
  intro a
  induction a with
  | nil => intro b; cases b <;> simp [listSum, dotQ]
  | cons x xs ih =>
    intro b
    cases b with
    | nil => simp [listSum, dotQ]
    | cons y ys => simp only [List.zipWith_cons_cons, listSum_cons, ih ys, dotQ]

theorem hadamardRowSums : ∀ A B : Mat,
    (matHadamard A B).map listSum = (A.zip B).map (fun p => dotQ p.1 p.2) := by
  intro A
  induction A with
  | nil => intro B; simp [matHadamard]
  | cons r rs ih =>
    intro B
    cases B with
    | nil => simp [matHadamard]
    | cons s ss =>
      simp only [matHadamard, List.zipWith_cons_cons, List.map_cons, List.zip_cons_cons,
        listSum_zipWith_mul]
      exact congrArg (dotQ r s :: ·) (ih ss)

theorem shape_augmentOne {M : Mat} {r c : ℕ} (h : HasShape M r c) :
    HasShape (augmentOne M) r (c + 1) := by
  obtain ⟨h1, h2⟩ := h
  refine ⟨by simp [augmentOne, h1], ?_⟩
  intro row hrow
  simp only [augmentOne, List.mem_map] at hrow
  obtain ⟨a, ha, rfl⟩ := hrow
  simp [h2 a ha]

theorem colsOf_eq {M : Mat} {r c : ℕ} (h : HasShape M r c) (hr : 0 < r) : colsOf M = c := by
  obtain ⟨h1, h2⟩ := h
  cases M with
  | nil => simp at h1; omega
  | cons a as => simpa [colsOf] using h2 a (by simp)

theorem shape_transposeM {M : Mat} {r c : ℕ} (h : HasShape M r c) (hr : 0 < r) :
    HasShape (transposeM M) c r := by
  refine ⟨by simp [transposeM, colsOf_eq h hr], ?_⟩
  intro row hrow
  simp only [transposeM, List.mem_map, List.mem_range] at hrow
  obtain ⟨j, _, rfl⟩ := hrow
  simp [colOf, h.1]

theorem shape_matMul {A B : Mat} {r k c : ℕ} (hA : A.length = r) (hB : HasShape B k c)
    (hk : 0 < k) : HasShape (matMul A B) r c := by
  refine ⟨by simp [matMul, hA], ?_⟩
  intro row hrow
  simp only [matMul, List.mem_map] at hrow
  obtain ⟨a, _, rfl⟩ := hrow
  simp [colsOf_eq hB hk]

theorem rowSub_smul_zero : ∀ v w : List ℚ, v.length = w.length →
    List.zipWith (· - ·) v (List.map (fun x => (0 : ℚ) * x) w) = v := by
  intro v
  induction v with
  | nil => intro w _; simp
  | cons a as ih =>
    intro w hw
    cases w with
    | nil => simp at hw
    | cons b bs =>
      simp only [List.map_cons, List.zipWith_cons_cons]
      rw [show a - 0 * b = a by ring]
      exact congrArg (a :: ·) (ih bs (by simpa using hw))

theorem matSub_smulM_zero : ∀ W M : Mat, W.length = M.length →
    (∀ p ∈ W.zip M, (p.1 : List ℚ).length = p.2.length) →
    matSub W (smulM 0 M) = W := by
  intro W
  induction W with
  | nil => intro M _ _; simp [matSub, smulM]
  | cons a as ih =>
    intro M hlen hrows
    cases M with
    | nil => simp at hlen
    | cons b bs =>
      simp only [matSub, smulM, List.map_cons, List.zipWith_cons_cons]
      rw [rowSub_smul_zero a b (hrows (a, b) (by simp))]
      exact congrArg (a :: ·)
        (ih bs (by simpa using hlen)
          (fun p hp => hrows p (by simp only [List.zip_cons_cons, List.mem_cons]; right; exact hp)))

/-!  Claim theorems. -/

/-- C1: refuted as stated.  In `Train(lr, inputs, labels)` the update pass
does call `UpdateWeights` once per layer with the correctly aligned
gradients, but `updateNetwork` supplies `update_funcs[0]` with the stored
member `inputs` (the construction-time default), not the inputs passed to
this `Train` call.  Here the network's stored default input is `[[0]]` while
`train` is called on `[[1]]`: the hidden layer's weights become
`[[1], [-1]]`, whereas updating with the inputs the layer received in this
call's forward pass (`[[1]]`, with the same collected gradient `[[1]]` and
`lr = 1`) would give `[[0], [-1]]`. -/
theorem train_first_layer_uses_stored_inputs :
    (train evalConst netExample 1 [[1]] [[true]]).2.hidden.map LinearLayer.weights
        = [[[1], [-1]]]
    ∧ (updateWeights (plainLinearLayer 1 1 1 [[1], [0]]) [[1]] [[1]] 1).weights
        = [[0], [-1]]
    ∧ ([[(1 : ℚ)], [-1]] : Mat) ≠ [[0], [-1]] := by
  refine ⟨?_, ?_, ?_⟩ <;>
    norm_num [train, fwdPass, fwdAux, bwdPass, bwdAux, updateNetwork, updateWeights,
      feedForward, seedBackProp, backPropagate, transformGradient, weightsNoBias, augmentOne,
      matMul, matSub, matHadamard, smulM, matUnaryExpr, transposeM, colOf, colsOf, dotQ,
      netExample, evalConst, plainLinearLayer, List.range_succ]

/-- C2: refuted as stated.  `fwdPass` threads `signals_outputs.first` — the
pre-activation signals — into the next layer.  With a single hidden layer
whose activation doubles (signal `[[1]]`, output `[[2]]`) and an
identity-weight output layer, the output layer's signals equal `[[1]]`:
it was run on the hidden layer's pre-activation signals, not on its
post-activation output `[[2]]`. -/
theorem fwdPass_threads_signals_not_outputs :
    (fwdPass evalConst netDoubling [[1]] [[true]] false).1 = [([[1]], [[2]])]
    ∧ (fwdPass evalConst netDoubling [[1]] [[true]] false).2.1 = [[1]]
    ∧ ([[(1 : ℚ)]] : Mat) ≠ [[2]] := by
  refine ⟨?_, ?_, ?_⟩ <;>
    norm_num [fwdPass, fwdAux, feedForward, augmentOne, matMul, matUnaryExpr, transposeM,
      colOf, colsOf, dotQ, netDoubling, doublingLayer, evalConst, plainLinearLayer,
      List.range_succ]

/-- C3: refuted as stated for C = 2.  `_toIndicesLabels` multiplies against
`indices.setLinSpaced(0, num_classes)` over `num_classes` entries; Eigen's
integer `LinSpaced` uses the step `(num_classes - 0) / (num_classes - 1)`,
which is `2` when `num_classes = 2`, so the indices vector is `[0, 2]` and
the one-hot row `[false, true]` maps to class index 2.  The round trip then
raises invalid-argument (`2 ≥ num_classes`) instead of returning `X`. -/
theorem oneHotRoundTrip_fails_at_two_classes :
    toIndicesLabels [[false, true]] = [2]
    ∧ toOneHotLabels (toIndicesLabels [[false, true]]) 2 = .error .invalidArgument := by
  refine ⟨by decide, by rfl⟩

/-- C6: refuted as stated.  `backPropagate` computes
`transformGradient(diff_signals)`, back-multiplying the activation
derivative matrix rather than the gradient.  For the repository's own
`PlainLinearLayer` (derivative 1) with weights `[[1], [0]]`, signals
`[[5]]` and upstream transformed gradient `[[2]]`, the code returns
transformed gradient `[[1]]`, while the claimed
`gradient · (weights without bias row)ᵀ` is `[[2]]`. -/
theorem backPropagate_transforms_diff_not_gradient :
    backPropagate (plainLinearLayer 1 1 1 [[1], [0]]) [[5]] [[2]] = ([[2]], [[1]])
    ∧ matMul [[(2 : ℚ)]] (transposeM (weightsNoBias (plainLinearLayer 1 1 1 [[1], [0]])))
        = [[2]]
    ∧ ([[(1 : ℚ)]] : Mat) ≠ [[2]] := by
  refine ⟨?_, ?_, ?_⟩ <;>
    norm_num [backPropagate, plainLinearLayer, matUnaryExpr, matHadamard, transformGradient,
      weightsNoBias, transposeM, colsOf, colOf, matMul, dotQ, List.range_succ]

/-- C8: refuted as stated.  `seedBackProp` back-multiplies the corrected
gradient, but `backPropagate` back-multiplies `diff_signals`, so the two
differ in their second component.  For the repository's `PlainLinearLayer`
with weights `[[2], [0]]`, signals `[[7]]` and incoming gradient `[[3]]`,
`seedBackProp` returns `([[3]], [[6]])` while `backPropagate` returns
`([[3]], [[2]])`. -/
theorem seedBackProp_ne_backPropagate :
    seedBackProp (plainLinearLayer 1 1 1 [[2], [0]]) [[7]] [[3]] = ([[3]], [[6]])
    ∧ backPropagate (plainLinearLayer 1 1 1 [[2], [0]]) [[7]] [[3]] = ([[3]], [[2]])
    ∧ seedBackProp (plainLinearLayer 1 1 1 [[2], [0]]) [[7]] [[3]]
        ≠ backPropagate (plainLinearLayer 1 1 1 [[2], [0]]) [[7]] [[3]] := by
  refine ⟨?_, ?_, ?_⟩ <;>
    norm_num [seedBackProp, backPropagate, plainLinearLayer, matUnaryExpr, matHadamard,
      transformGradient, weightsNoBias, transposeM, colsOf, colOf, matMul, dotQ,
      List.range_succ, Prod.ext_iff]

/-- C9: confirmed.  `test` performs the forward pass with
`update_loss = false` and returns `std::get<3>` — the evaluator's
`(loss, metric)` pair on the final forward outputs — leaving the entire
network state (every layer's weights and the stored `loss` member written by
`train`) unchanged. -/
theorem test_returns_eval_pair_and_mutates_nothing (ev : Eval) (net : FeedFwdNN)
    (curr_inputs : Mat) (curr_one_hot_labels : MatB) :
    (test ev net curr_inputs curr_one_hot_labels).1
        = (ev (netFinalOutputs net curr_inputs) curr_one_hot_labels).1
    ∧ (test ev net curr_inputs curr_one_hot_labels).2 = net :=
  ⟨rfl, rfl⟩

/-- C10: confirmed.  `popLayer` pops the per-layer lists unconditionally,
so on a network with zero hidden layers the Option-guarded pop takes its
error branch (`none`); under the precondition that a layer was pushed, the
pop succeeds and removes exactly the most recently pushed layer, restoring
the previous network. -/
theorem popLayer_empty_err_and_pop_push_inverse (net : FeedFwdNN) :
    (net.hidden = [] → popLayer net = none)
    ∧ ∀ layer, popLayer (pushLayer net layer) = some net := by
  constructor
  · intro h
    simp [popLayer, h]
  · intro layer
    have hd : (net.hidden ++ [layer]).dropLast = net.hidden := by
      simp
    rcases hcat : net.hidden ++ [layer] with _ | ⟨y, ys⟩
    · exact absurd hcat (by simp)
    · simp only [popLayer, pushLayer, hcat]
      rw [← hcat, hd]

/-- C10 witness: instantiated at the network `netExample`, whose hidden
stack is nonempty, and at its variant with an empty hidden stack. -/
theorem popLayer_empty_err_and_pop_push_inverse_witness :
    popLayer { netExample with hidden := [] } = none
    ∧ popLayer (pushLayer netExample doublingLayer) = some netExample :=
  ⟨(popLayer_empty_err_and_pop_push_inverse { netExample with hidden := [] }).1 rfl,
   (popLayer_empty_err_and_pop_push_inverse netExample).2 doublingLayer⟩

/-- C4: confirmed.  `updateNetwork` checks `lr < 0` and throws
invalid-argument before touching any `update_funcs` entry, and the forward
and backward passes touch no weights, so when `train` is called with a
negative learning rate the error propagates with every layer's weight
matrix (hidden and output) equal to its pre-call value. -/
theorem train_negative_lr_error_and_weights_unchanged (ev : Eval) (net : FeedFwdNN)
    (lr : ℚ) (curr_inputs : Mat) (curr_one_hot_labels : MatB) (h : lr < 0) :
    (train ev net lr curr_inputs curr_one_hot_labels).1 = .error .invalidArgument
    ∧ netWeights (train ev net lr curr_inputs curr_one_hot_labels).2 = netWeights net := by
  have hup : ∀ (net1 : FeedFwdNN) (ov gv : List Mat),
      updateNetwork net1 ov gv lr = (.error .invalidArgument, net1) := by
    intro net1 ov gv
    unfold updateNetwork
    rw [if_pos h]
  constructor
  · simp [train, hup]
  · simp [train, hup, fwdPass, netWeights]

/-- C4 witness: at `netExample` with `lr = -1`. -/
theorem train_negative_lr_error_and_weights_unchanged_witness :
    (-1 : ℚ) < 0
    ∧ ((train evalConst netExample (-1) [[1]] [[true]]).1 = .error .invalidArgument
        ∧ netWeights (train evalConst netExample (-1) [[1]] [[true]]).2
            = netWeights netExample) :=
  ⟨by norm_num,
   train_negative_lr_error_and_weights_unchanged evalConst netExample (-1) [[1]] [[true]]
     (by norm_num)⟩

/-- C7: confirmed.  For matching shapes (inputs N×Din, gradient N×Dout,
weights (Din+1)×Dout, N ≥ 1), `updateWeights` replaces the weights by
`weights − lr · (augmented inputs)ᵀ · gradient`, is a no-op on the weights
when `lr = 0` regardless of the gradient, and changes no other layer
state (activation pair, dimensions, max weight). -/
theorem updateWeights_formula_zero_lr_noop_and_frame (layer : LinearLayer)
    (inputs gradient : Mat) (lr : ℚ) (N Din Dout : ℕ) (hN : 0 < N)
    (hi : HasShape inputs N Din) (hg : HasShape gradient N Dout)
    (hw : HasShape layer.weights (Din + 1) Dout) :
    (updateWeights layer inputs gradient lr).weights
        = matSub layer.weights (smulM lr (matMul (transposeM (augmentOne inputs)) gradient))
    ∧ (updateWeights layer inputs gradient 0).weights = layer.weights
    ∧ (updateWeights layer inputs gradient lr).activate = layer.activate
    ∧ (updateWeights layer inputs gradient lr).differentiate = layer.differentiate
    ∧ (updateWeights layer inputs gradient lr).in_dim = layer.in_dim
    ∧ (updateWeights layer inputs gradient lr).out_dim = layer.out_dim
    ∧ (updateWeights layer inputs gradient lr).max_weight = layer.max_weight := by
  refine ⟨rfl, ?_, rfl, rfl, rfl, rfl, rfl⟩
  have hT : HasShape (transposeM (augmentOne inputs)) (Din + 1) N :=
    shape_transposeM (shape_augmentOne hi) hN
  have hstep : HasShape (matMul (transposeM (augmentOne inputs)) gradient) (Din + 1) Dout :=
    shape_matMul hT.1 hg hN
  show matSub layer.weights
      (smulM 0 (matMul (transposeM (augmentOne inputs)) gradient)) = layer.weights
  refine matSub_smulM_zero _ _ (by rw [hw.1, hstep.1]) ?_
  intro p hp
  have hmem := List.of_mem_zip hp
  rw [hw.2 p.1 hmem.1, hstep.2 p.2 hmem.2]

/-- C7 witness: a 1×1 layer with weights `[[1], [0]]`, inputs `[[3]]`,
gradient `[[5]]` and `lr = 2`. -/
theorem updateWeights_formula_zero_lr_noop_and_frame_witness :
    (0 < 1
      ∧ HasShape [[3]] 1 1
      ∧ HasShape [[5]] 1 1
      ∧ HasShape (plainLinearLayer 1 1 1 [[1], [0]]).weights (1 + 1) 1)
    ∧ ((updateWeights (plainLinearLayer 1 1 1 [[1], [0]]) [[3]] [[5]] 2).weights
          = matSub (plainLinearLayer 1 1 1 [[1], [0]]).weights
              (smulM 2 (matMul (transposeM (augmentOne [[3]])) [[5]]))
        ∧ (updateWeights (plainLinearLayer 1 1 1 [[1], [0]]) [[3]] [[5]] 0).weights
            = (plainLinearLayer 1 1 1 [[1], [0]]).weights
        ∧ (updateWeights (plainLinearLayer 1 1 1 [[1], [0]]) [[3]] [[5]] 2).activate
            = (plainLinearLayer 1 1 1 [[1], [0]]).activate
        ∧ (updateWeights (plainLinearLayer 1 1 1 [[1], [0]]) [[3]] [[5]] 2).differentiate
            = (plainLinearLayer 1 1 1 [[1], [0]]).differentiate
        ∧ (updateWeights (plainLinearLayer 1 1 1 [[1], [0]]) [[3]] [[5]] 2).in_dim
            = (plainLinearLayer 1 1 1 [[1], [0]]).in_dim
        ∧ (updateWeights (plainLinearLayer 1 1 1 [[1], [0]]) [[3]] [[5]] 2).out_dim
            = (plainLinearLayer 1 1 1 [[1], [0]]).out_dim
        ∧ (updateWeights (plainLinearLayer 1 1 1 [[1], [0]]) [[3]] [[5]] 2).max_weight
            = (plainLinearLayer 1 1 1 [[1], [0]]).max_weight) :=
  ⟨⟨by norm_num, by decide, by decide, by decide⟩,
   updateWeights_formula_zero_lr_noop_and_frame (plainLinearLayer 1 1 1 [[1], [0]])
     [[3]] [[5]] 2 1 1 1 (by norm_num) (by decide) (by decide) (by decide)⟩

/-- C5: confirmed.  For an N-row output matrix and an N-row one-hot label
matrix (exactly one true per row), `softMaxLoss` returns a cross-entropy
equal to `−(1/N) · Σ_rows log(softmax_row · one_hot_row)` (dot product
against the labels cast to float) and a gradient equal to
`(1/N) · (softmax − labels cast to float)`, for every interpretation of the
exponential and logarithm. -/
theorem softMaxLoss_cross_entropy_and_gradient (expf logf : ℚ → ℚ) (outputs : Mat)
    (one_hot_labels : MatB) (N C : ℕ) (hN : 0 < N)
    (ho : HasShape outputs N C) (hl : HasShapeB one_hot_labels N C)
    (hhot : ∀ row ∈ one_hot_labels, row.count true = 1) :
    (softMaxLoss expf logf outputs one_hot_labels).1.1
        = -(1 / (N : ℚ)) * listSum
            (((softMaxAx1 expf outputs).zip (castBoolMat one_hot_labels)).map
              (fun p => logf (dotQ p.1 p.2)))
    ∧ (softMaxLoss expf logf outputs one_hot_labels).2
        = smulM (1 / (N : ℚ))
            (matSub (softMaxAx1 expf outputs) (castBoolMat one_hot_labels)) := by
  constructor
  · show (-1 / ((one_hot_labels.length : ℕ) : ℚ)) * listSum
        (((matHadamard (softMaxAx1 expf outputs) (castBoolMat one_hot_labels)).map
          listSum).map logf) = _
    rw [hadamardRowSums, List.map_map, hl.1, neg_div]
    rfl
  · show smulM (1 / ((one_hot_labels.length : ℕ) : ℚ))
        (matSub (softMaxAx1 expf outputs) (castBoolMat one_hot_labels)) = _
    rw [hl.1]

/-- C5 witness: instantiated with the identity in place of exp and log,
outputs `[[1, 2]]` and labels `[[false, true]]` (N = 1, C = 2). -/
theorem softMaxLoss_cross_entropy_and_gradient_witness :
    (0 < 1
      ∧ HasShape [[1, 2]] 1 2
      ∧ HasShapeB [[false, true]] 1 2
      ∧ ∀ row ∈ [[false, true]], row.count true = 1)
    ∧ ((softMaxLoss (fun x => x) (fun x => x) [[1, 2]] [[false, true]]).1.1
          = -(1 / ((1 : ℕ) : ℚ)) * listSum
              (((softMaxAx1 (fun x => x) [[1, 2]]).zip (castBoolMat [[false, true]])).map
                (fun p => (fun x : ℚ => x) (dotQ p.1 p.2)))
        ∧ (softMaxLoss (fun x => x) (fun x => x) [[1, 2]] [[false, true]]).2
            = smulM (1 / ((1 : ℕ) : ℚ))
                (matSub (softMaxAx1 (fun x => x) [[1, 2]]) (castBoolMat [[false, true]]))) :=
  ⟨⟨by norm_num, by decide, by decide, by decide⟩,
   softMaxLoss_cross_entropy_and_gradient (fun x => x) (fun x => x) [[1, 2]] [[false, true]]
     1 2 (by norm_num) (by decide) (by decide) (by decide)⟩
